import Mathlib

/-!
Verification of the langtrainer quiz frontend (src/unnamed/part_000).

Strings are modelled as lists of Unicode code points (`List Nat`); all the
characters the program manipulates are in the Basic Multilingual Plane, so
code points coincide with the UTF-16 code units JavaScript regexes operate
on.  JavaScript objects used as string-keyed maps (the mastery ledger in
localStorage) are modelled as association lists with insertion-order
semantics, which is how JavaScript enumerates such objects.
-/

namespace LangTrainer

/-- A JavaScript string: its list of code points. -/
abbrev Str := List Nat

/-- Code points of a Lean string literal (all our literals are BMP ASCII). -/
def strCodes (s : String) : Str := s.data.map Char.toNat

/-- Decimal rendering of a number, as code points (JS template interpolation). -/
def natCodes (n : Nat) : Str := strCodes (toString n)

/-- Quiz direction (the value of the `direction` form field). -/
inductive Direction where
  | greekToBulgarian
  | bulgarianToGreek
deriving DecidableEq

/-- The string the `direction` field carries, used in progress keys. -/
def dirCodes : Direction → Str
  | .greekToBulgarian => strCodes "greek_to_bulgarian"
  | .bulgarianToGreek => strCodes "bulgarian_to_greek"

/-! ### JavaScript object operations (string-keyed maps as assoc lists) -/

/-- Property read `obj[k]` on a JS object modelled as an assoc list. -/
def objGet {α : Type} : List (Str × α) → Str → Option α
  | [], _ => none
  | (k', v') :: rest, k => if k' = k then some v' else objGet rest k

/-- Property write `obj[k] = v`: overwrite in place, else append (JS keeps
insertion order for string keys). -/
def objSet {α : Type} : List (Str × α) → Str → α → List (Str × α)
  | [], k, v => [(k, v)]
  | (k', v') :: rest, k, v =>
    if k' = k then (k, v) :: rest else (k', v') :: objSet rest k v

/-- Property deletion `delete obj[k]`. -/
def objDelete {α : Type} (l : List (Str × α)) (k : Str) : List (Str × α) :=
  l.filter fun p => decide (p.1 ≠ k)

theorem objGet_objSet_self {α : Type} (l : List (Str × α)) (k : Str) (v : α) :
    objGet (objSet l k v) k = some v := by
  induction l with
  | nil => simp [objGet, objSet]
  | cons p rest ih =>
    by_cases h : p.1 = k
    · simp [objSet, objGet, h]
    · simp [objSet, objGet, h, ih]

theorem objGet_objSet_ne {α : Type} (l : List (Str × α)) (k k' : Str) (v : α)
    (h : k ≠ k') : objGet (objSet l k v) k' = objGet l k' := by
  induction l with
  | nil => simp [objGet, objSet, h]
  | cons p rest ih =>
    by_cases hp : p.1 = k
    · simp [objSet, objGet, hp, h]
    · by_cases hp' : p.1 = k'
      · simp [objSet, objGet, hp, hp', Ne.symm h]
      · simp [objSet, objGet, hp, hp', ih]

theorem mem_objSet {α : Type} (l : List (Str × α)) (k : Str) (v : α) :
    ∀ p ∈ objSet l k v, p ∈ l ∨ p = (k, v) := by
  induction l with
  | nil => simp [objSet]
  | cons q rest ih =>
    intro p hp
    by_cases hq : q.1 = k
    · simp only [objSet, hq, if_true] at hp
      rcases List.mem_cons.mp hp with h | h
      · right; exact h
      · left; exact List.mem_cons_of_mem _ h
    · simp only [objSet, hq, if_false] at hp
      rcases List.mem_cons.mp hp with h | h
      · left; exact h ▸ List.mem_cons_self _ _
      · rcases ih p h with h' | h'
        · left; exact List.mem_cons_of_mem _ h'
        · right; exact h'

theorem objGet_mem {α : Type} (l : List (Str × α)) (k : Str) (v : α)
    (h : objGet l k = some v) : (k, v) ∈ l := by
  induction l with
  | nil => simp [objGet] at h
  | cons p rest ih =>
    by_cases hp : p.1 = k
    · simp only [objGet, hp, if_true, Option.some.injEq] at h
      subst h
      have : p = (k, p.2) := by rw [← hp]
      rw [← this]; exact List.mem_cons_self _ _
    · simp only [objGet, hp, if_false] at h
      exact List.mem_cons_of_mem _ (ih h)

/-! ### createWordKey (part_000 lines 28-32)

`greek.replace(/[^\wα-ωΑ-Ω]/g, '').toLowerCase()` keeps `\w`
(`A-Z a-z 0-9 _`) plus the unaccented Greek ranges U+03B1-U+03C9 and
U+0391-U+03A9, discards everything else (accented Greek letters included),
then lowercases.  Likewise for the Bulgarian side with the Cyrillic ranges
U+0430-U+044F and U+0410-U+042F. -/

/-- Characters kept by `replace(/[^\wα-ωΑ-Ω]/g, '')`. -/
def keepGreekChar (c : Nat) : Bool :=
  decide ((48 ≤ c ∧ c ≤ 57) ∨ (65 ≤ c ∧ c ≤ 90) ∨ c = 95 ∨ (97 ≤ c ∧ c ≤ 122) ∨
    (0x3B1 ≤ c ∧ c ≤ 0x3C9) ∨ (0x391 ≤ c ∧ c ≤ 0x3A9))

/-- Characters kept by `replace(/[^\wа-яА-Я]/g, '')`. -/
def keepBulgChar (c : Nat) : Bool :=
  decide ((48 ≤ c ∧ c ≤ 57) ∨ (65 ≤ c ∧ c ≤ 90) ∨ c = 95 ∨ (97 ≤ c ∧ c ≤ 122) ∨
    (0x430 ≤ c ∧ c ≤ 0x44F) ∨ (0x410 ≤ c ∧ c ≤ 0x42F))

/-- Simple (context-free) Unicode lowercase for the alphabets in play:
ASCII `A-Z`, Greek capitals U+0391-U+03A1 and U+03A3-U+03A9 (U+03A2 is an
unassigned gap with no mapping; Σ maps to σ here, the word-final ς case
being handled by `toLowerStr`), Cyrillic capitals U+0410-U+042F. -/
def toLowerCp (c : Nat) : Nat :=
  if 65 ≤ c ∧ c ≤ 90 then c + 32
  else if 0x391 ≤ c ∧ c ≤ 0x3A1 then c + 32
  else if 0x3A3 ≤ c ∧ c ≤ 0x3A9 then c + 32
  else if 0x410 ≤ c ∧ c ≤ 0x42F then c + 32
  else c

/-- Unicode `Cased` property, for the letters of the program's alphabets
(ASCII, Greek monotonic incl. accented forms, Cyrillic); characters
outside these ranges never reach `toLowerStr` through `createWordKey`
(the preceding filter deletes them), so they are treated as non-cased. -/
def casedChar (c : Nat) : Bool :=
  decide ((65 ≤ c ∧ c ≤ 90) ∨ (97 ≤ c ∧ c ≤ 122) ∨
    (0x391 ≤ c ∧ c ≤ 0x3A9 ∧ c ≠ 0x3A2) ∨ (0x3B1 ≤ c ∧ c ≤ 0x3C9) ∨
    c = 0x386 ∨ (0x388 ≤ c ∧ c ≤ 0x38A) ∨ c = 0x38C ∨
    (0x38E ≤ c ∧ c ≤ 0x3AF) ∨ (0x3CA ≤ c ∧ c ≤ 0x3CE) ∨
    (0x400 ≤ c ∧ c ≤ 0x45F))

/-- `toLowerCase` on a string, with the mandatory locale-insensitive
`Final_Sigma` rule of the Unicode Default Case Conversion: a capital Σ
preceded by a cased letter and not followed by one lowercases to the
final sigma ς (U+03C2), otherwise to σ (U+03C3).  The strings this is
applied to inside createWordKey have already been filtered down to word
characters and plain letters, an alphabet containing no case-ignorable
characters, so the adjacent-character form of the rule is the full rule
there.  The accumulator carries whether the previous character was
cased. -/
def toLowerStrAux (prevCased : Bool) : Str → Str
  | [] => []
  | c :: rest =>
    (if c = 0x3A3 then
      if prevCased && !(match rest.head? with
          | some d => casedChar d
          | none => false) then 0x3C2 else 0x3C3
    else toLowerCp c) :: toLowerStrAux (casedChar c) rest

/-- `toLowerCase`. -/
def toLowerStr (s : Str) : Str := toLowerStrAux false s

/-- `cleanGreek` of createWordKey: filter then lowercase. -/
def cleanGreekSide (s : Str) : Str := toLowerStr (s.filter keepGreekChar)

/-- `cleanBulgarian` of createWordKey: filter then lowercase. -/
def cleanBulgarianSide (s : Str) : Str := toLowerStr (s.filter keepBulgChar)

/-- createWordKey: the template string `lesson_cleanGreek_cleanBulgarian`
(95 is the underscore). -/
def createWordKey (greek bulgarian : Str) (lesson : Nat) : Str :=
  natCodes lesson ++ [95] ++ cleanGreekSide greek ++ [95] ++ cleanBulgarianSide bulgarian

/-! ### Word-identity collision (claim C3)

The claim quantifies over word pairs that "differ only in case, diacritic
marks, or punctuation".  We state that relation directly from the spec's
words: erase punctuation, lowercase, and strip diacritic marks from
accented Greek letters (monotonic precomposed forms to their base letter);
two strings are related when these reductions agree. -/

/-- Punctuation in the spec's sense: `( ) [ ] . , ; :`. -/
def isPunctChar (c : Nat) : Bool :=
  decide (c = 40 ∨ c = 41 ∨ c = 91 ∨ c = 93 ∨ c = 46 ∨ c = 44 ∨ c = 59 ∨ c = 58)

/-- Erase punctuation characters. -/
def stripPunct (s : Str) : Str := s.filter fun c => !isPunctChar c

/-- Strip a diacritic mark from a precomposed Greek letter, yielding its
base letter (monotonic accented vowels, lowercase and capital). -/
def stripDiacriticCp (c : Nat) : Nat :=
  if c = 0x386 then 0x391 else if c = 0x388 then 0x395
  else if c = 0x389 then 0x397 else if c = 0x38A then 0x399
  else if c = 0x38C then 0x39F else if c = 0x38E then 0x3A5
  else if c = 0x38F then 0x3A9 else if c = 0x3AC then 0x3B1
  else if c = 0x3AD then 0x3B5 else if c = 0x3AE then 0x3B7
  else if c = 0x3AF then 0x3B9 else if c = 0x3CA then 0x3B9
  else if c = 0x3CB then 0x3C5 else if c = 0x3CC then 0x3BF
  else if c = 0x3CD then 0x3C5 else if c = 0x3CE then 0x3C9
  else c

/-- The claim's hypothesis: two strings differ only in case, diacritic
marks, or punctuation. -/
def sameUpToCaseDiacriticsPunct (s t : Str) : Prop :=
  (stripPunct s).map (fun c => stripDiacriticCp (toLowerCp c)) =
    (stripPunct t).map (fun c => stripDiacriticCp (toLowerCp c))

/-- Lowercase image of the characters kept on the Greek side (U+03A2 sits
inside the regex range `Α-Ω` but has no lowercase mapping). -/
def keepGreekLowChar (c : Nat) : Bool :=
  decide ((48 ≤ c ∧ c ≤ 57) ∨ c = 95 ∨ (97 ≤ c ∧ c ≤ 122) ∨
    (0x3B1 ≤ c ∧ c ≤ 0x3C9) ∨ c = 0x3A2)

/-- Lowercase image of the characters kept on the Bulgarian side. -/
def keepBulgLowChar (c : Nat) : Bool :=
  decide ((48 ≤ c ∧ c ≤ 57) ∨ c = 95 ∨ (97 ≤ c ∧ c ≤ 122) ∨
    (0x430 ≤ c ∧ c ≤ 0x44F))

theorem keepGreekChar_toLower (c : Nat) :
    keepGreekChar c = keepGreekLowChar (toLowerCp c) := by
  unfold toLowerCp keepGreekChar keepGreekLowChar
  split_ifs <;> simp only [decide_eq_decide] <;> omega

theorem keepBulgChar_toLower (c : Nat) :
    keepBulgChar c = keepBulgLowChar (toLowerCp c) := by
  unfold toLowerCp keepBulgChar keepBulgLowChar
  split_ifs <;> simp only [decide_eq_decide] <;> omega

theorem keepGreekChar_not_punct (c : Nat) (h : keepGreekChar c = true) :
    isPunctChar c = false := by
  simp only [keepGreekChar, decide_eq_true_eq] at h
  simp only [isPunctChar, decide_eq_false_iff_not]
  omega

theorem keepBulgChar_not_punct (c : Nat) (h : keepBulgChar c = true) :
    isPunctChar c = false := by
  simp only [keepBulgChar, decide_eq_true_eq] at h
  simp only [isPunctChar, decide_eq_false_iff_not]
  omega

/-- Filtering by a predicate that excludes punctuation ignores a prior
punctuation strip. -/
theorem filter_stripPunct (p : Nat → Bool)
    (hp : ∀ c, p c = true → isPunctChar c = false) (s : Str) :
    (stripPunct s).filter p = s.filter p := by
  induction s with
  | nil => rfl
  | cons c rest ih =>
    by_cases hc : p c = true
    · have : isPunctChar c = false := hp c hc
      simp [stripPunct, List.filter_cons, this, hc] at ih ⊢
      exact ih
    · simp only [Bool.not_eq_true] at hc
      by_cases hpc : isPunctChar c
      · simp [stripPunct, List.filter_cons, hpc, hc] at ih ⊢
        exact ih
      · simp [stripPunct, List.filter_cons, hpc, hc] at ih ⊢
        exact ih

/-- Filter-then-lowercase equals lowercase-then-filter when the predicates
correspond across the case mapping. -/
theorem filter_map_toLower (p q : Nat → Bool)
    (hpq : ∀ c, p c = q (toLowerCp c)) (s : Str) :
    (s.filter p).map toLowerCp = (s.map toLowerCp).filter q := by
  induction s with
  | nil => rfl
  | cons c rest ih =>
    by_cases hc : p c = true
    · have hq : q (toLowerCp c) = true := by rw [← hpq]; exact hc
      simp [List.filter_cons, List.map_cons, hc, hq, ih]
    · simp only [Bool.not_eq_true] at hc
      have hq : q (toLowerCp c) = false := by rw [← hpq]; exact hc
      simp [List.filter_cons, List.map_cons, hc, hq, ih]

/-- On a string with no capital Σ, `toLowerCase` is the simple
character-wise mapping. -/
theorem toLowerStrAux_no_sigma :
    ∀ (s : Str) (pc : Bool), (0x3A3 : Nat) ∉ s →
      toLowerStrAux pc s = s.map toLowerCp := by
  intro s
  induction s with
  | nil => intro pc _; rfl
  | cons c rest ih =>
    intro pc hs
    have hc : c ≠ 0x3A3 := fun h => hs (h ▸ List.mem_cons_self _ _)
    have hrest : (0x3A3 : Nat) ∉ rest := fun h => hs (List.mem_cons_of_mem _ h)
    simp only [toLowerStrAux, hc, if_false, List.map_cons, ih _ hrest]

theorem sigma_not_mem_filter {p : Nat → Bool} (s : Str)
    (hp : p 0x3A3 = false) : (0x3A3 : Nat) ∉ s.filter p := by
  intro h
  have := (List.mem_filter.mp h).2
  rw [hp] at this
  exact Bool.false_ne_true this

theorem cleanGreekSide_eq_of_no_sigma (s : Str) (hs : (0x3A3 : Nat) ∉ s) :
    cleanGreekSide s = ((stripPunct s).map toLowerCp).filter keepGreekLowChar := by
  unfold cleanGreekSide toLowerStr
  rw [toLowerStrAux_no_sigma _ _ (fun h => hs (List.mem_filter.mp h).1)]
  rw [← filter_stripPunct keepGreekChar keepGreekChar_not_punct s]
  exact filter_map_toLower _ _ keepGreekChar_toLower _

/-- The Bulgarian-side filter deletes Σ, so no sigma hypothesis is needed
on that side. -/
theorem cleanBulgarianSide_eq (s : Str) :
    cleanBulgarianSide s = ((stripPunct s).map toLowerCp).filter keepBulgLowChar := by
  unfold cleanBulgarianSide toLowerStr
  rw [toLowerStrAux_no_sigma _ _ (sigma_not_mem_filter s (by decide))]
  rw [← filter_stripPunct keepBulgChar keepBulgChar_not_punct s]
  exact filter_map_toLower _ _ keepBulgChar_toLower _

/-- C3 (amended): word pairs (same lesson) whose sides differ only in
punctuation always produce the identical word-identity key, and word
pairs whose sides differ only in case or punctuation do so provided the
Greek sides contain no capital Σ.  The two insensitivities the original
claim also asserted fail (see the counterexample): an accented Greek
letter is erased outright by the key's character filter rather than
reduced to its base letter, and a word-final Σ lowercases to ς while a σ
stays σ, so ΑΣ and ασ — differing only in case — get different keys. -/
theorem createWordKey_case_punct_insensitive :
    (∀ (g1 g2 b1 b2 : Str) (lesson : Nat),
      stripPunct g1 = stripPunct g2 → stripPunct b1 = stripPunct b2 →
      createWordKey g1 b1 lesson = createWordKey g2 b2 lesson) ∧
    (∀ (g1 g2 b1 b2 : Str) (lesson : Nat),
      (0x3A3 : Nat) ∉ g1 → (0x3A3 : Nat) ∉ g2 →
      (stripPunct g1).map toLowerCp = (stripPunct g2).map toLowerCp →
      (stripPunct b1).map toLowerCp = (stripPunct b2).map toLowerCp →
      createWordKey g1 b1 lesson = createWordKey g2 b2 lesson) := by
  constructor
  · intro g1 g2 b1 b2 lesson hg hb
    unfold createWordKey cleanGreekSide cleanBulgarianSide
    rw [← filter_stripPunct keepGreekChar keepGreekChar_not_punct g1,
      ← filter_stripPunct keepGreekChar keepGreekChar_not_punct g2,
      ← filter_stripPunct keepBulgChar keepBulgChar_not_punct b1,
      ← filter_stripPunct keepBulgChar keepBulgChar_not_punct b2, hg, hb]
  · intro g1 g2 b1 b2 lesson hs1 hs2 hg hb
    unfold createWordKey
    rw [cleanGreekSide_eq_of_no_sigma g1 hs1, cleanGreekSide_eq_of_no_sigma g2 hs2,
      cleanBulgarianSide_eq, cleanBulgarianSide_eq, hg, hb]

/-- Witness for `createWordKey_case_punct_insensitive`: ΛΣ. / ΛΣ with
Л / Л, at lesson 3 (punctuation only, capital sigma present), and
ΛΓΩ / λ,γω with Л / л. at lesson 2 (case and punctuation, no sigma). -/
theorem createWordKey_case_punct_insensitive_witness :
    createWordKey [0x39B, 0x3A3, 46] [0x41B] 3 =
      createWordKey [0x39B, 0x3A3] [0x41B, 44] 3 ∧
    createWordKey [0x39B, 0x393, 0x3A9] [0x41B] 2 =
      createWordKey [0x3BB, 44, 0x3B3, 0x3C9] [0x43B, 46] 2 :=
  ⟨createWordKey_case_punct_insensitive.1 _ _ _ _ 3 (by decide) (by decide),
    createWordKey_case_punct_insensitive.2 _ _ _ _ 2 (by decide) (by decide)
      (by decide) (by decide)⟩

/-- C3 counterexamples.  First: λέγω and λεγω (same Bulgarian side
казвам, same lesson 1) differ only in the diacritic mark on epsilon, yet
their keys differ — the filter erases the accented U+03AD entirely
(1_λγω_казвам versus 1_λεγω_казвам).  Second: ΑΣ and ασ differ only in
case, yet their keys differ — toLowerCase maps the word-final capital Σ
to ς (U+03C2, Final_Sigma rule) while the σ of ασ stays σ (U+03C3). -/
theorem createWordKey_diacritic_counterexample :
    (sameUpToCaseDiacriticsPunct [0x3BB, 0x3AD, 0x3B3, 0x3C9]
        [0x3BB, 0x3B5, 0x3B3, 0x3C9] ∧
      createWordKey [0x3BB, 0x3AD, 0x3B3, 0x3C9]
          [0x43A, 0x430, 0x437, 0x432, 0x430, 0x43C] 1 ≠
        createWordKey [0x3BB, 0x3B5, 0x3B3, 0x3C9]
          [0x43A, 0x430, 0x437, 0x432, 0x430, 0x43C] 1) ∧
    (sameUpToCaseDiacriticsPunct [0x391, 0x3A3] [0x3B1, 0x3C3] ∧
      createWordKey [0x391, 0x3A3] [0x43B] 1 ≠
        createWordKey [0x3B1, 0x3C3] [0x43B] 1) := by
  refine ⟨⟨?_, ?_⟩, ?_, ?_⟩
  · unfold sameUpToCaseDiacriticsPunct
    decide
  · decide
  · unfold sameUpToCaseDiacriticsPunct
    decide
  · decide

/-! ### Mastery ledger (word-progress storage)

`progress.wordProgress` is a JS object mapping progress keys to entries;
we model it as an insertion-ordered assoc list.  The `lastSeen` ISO
timestamp is an opaque string supplied by the environment (`now`). -/

/-- A word pair as served by the backend and stored in `state.wordPairs`. -/
structure WordPair where
  greek : Str
  bulgarian : Str
  lesson : Nat
deriving DecidableEq

/-- The grading result the backend returns for one question; only the
fields `correct` and `partial_credit` (here `partialCredit`) matter to
progress saving. -/
structure AnswerResult where
  correct : Bool
  partialCredit : Bool
deriving DecidableEq

/-- One entry of `progress.wordProgress`. -/
structure ProgressEntry where
  greek : Str
  bulgarian : Str
  lesson : Nat
  direction : Direction
  correct : Bool
  lastSeen : Str
deriving DecidableEq

/-- The `wordProgress` object. -/
abbrev Ledger := List (Str × ProgressEntry)

/-- The progress key `direction_lesson_wordKey` (part_000 lines 90, 1130). -/
def progressKey (direction : Direction) (lesson : Nat) (wordKey : Str) : Str :=
  dirCodes direction ++ [95] ++ natCodes lesson ++ [95] ++ wordKey

/-- The full progress key of a word pair. -/
def keyFor (direction : Direction) (wp : WordPair) : Str :=
  progressKey direction wp.lesson (createWordKey wp.greek wp.bulgarian wp.lesson)

/-- The entry saveQuizProgress (and markWordCorrect) writes for a mastered
word. -/
def mkMasteredEntry (wp : WordPair) (direction : Direction) (now : Str) :
    ProgressEntry :=
  ⟨wp.greek, wp.bulgarian, wp.lesson, direction, true, now⟩

/-- markWordCorrect (part_000 lines 87-102), acting on the wordProgress
object. -/
def markWordCorrect (greek bulgarian : Str) (lesson : Nat)
    (direction : Direction) (now : Str) (progress : Ledger) : Ledger :=
  objSet progress (progressKey direction lesson (createWordKey greek bulgarian lesson))
    (mkMasteredEntry ⟨greek, bulgarian, lesson⟩ direction now)

/-- `wasFullyCorrect` (part_000 line 1123): `correct === true` and not
partial credit. -/
def isFullVerdict (a : AnswerResult) : Bool :=
  a.correct && !a.partialCredit

/-- Whether the recorded answer at index `i` exists and is a full verdict. -/
def fullVerdictAt (answers : List AnswerResult) (i : Nat) : Bool :=
  match answers.get? i with
  | some a => isFullVerdict a
  | none => false

/-- One iteration of the forEach in saveQuizProgress (part_000 lines
1098-1148): skip when the word pair has no (truthy) lesson, skip when no
answer is recorded at this index, write a mastered entry exactly when the
answer was fully correct. -/
def saveStep (direction : Direction) (now : Str) (answers : List AnswerResult)
    (i : Nat) (wp : WordPair) (progress : Ledger) : Ledger :=
  if wp.lesson = 0 then progress
  else
    match answers.get? i with
    | none => progress
    | some a =>
      if isFullVerdict a then
        objSet progress (keyFor direction wp) (mkMasteredEntry wp direction now)
      else progress

/-- The forEach loop of saveQuizProgress, with the running index. -/
def saveQuizAux (direction : Direction) (now : Str)
    (answers : List AnswerResult) : Nat → List WordPair → Ledger → Ledger
  | _, [], progress => progress
  | i, wp :: rest, progress =>
    saveQuizAux direction now answers (i + 1) rest
      (saveStep direction now answers i wp progress)

/-- saveQuizProgress (part_000 lines 1081-1158), acting on the
wordProgress object read once at the start and written once at the end. -/
def saveQuizProgress (direction : Direction) (now : Str)
    (wordPairs : List WordPair) (answers : List AnswerResult)
    (progress : Ledger) : Ledger :=
  saveQuizAux direction now answers 0 wordPairs progress

/-- The condition of getCorrectWordsForLessons (part_000 line 761). -/
def correctMatch (lessons : List Nat) (direction : Direction)
    (e : ProgressEntry) : Bool :=
  e.correct && decide (e.direction = direction) && decide (e.lesson ∈ lessons)

/-- An element of the `exclude_correct_words` list sent at session start. -/
structure CorrectWord where
  greek : Str
  bulgarian : Str
  lesson : Nat
deriving DecidableEq

/-- getCorrectWordsForLessons (part_000 lines 755-773). -/
def getCorrectWordsForLessons (lessons : List Nat) (direction : Direction)
    (progress : Ledger) : List CorrectWord :=
  progress.foldl
    (fun acc p =>
      if correctMatch lessons direction p.2 then
        acc ++ [⟨p.2.greek, p.2.bulgarian, p.2.lesson⟩]
      else acc)
    []

/-- The condition of resetProgress (part_000 line 120). -/
def resetMatch (lessons : List Nat) (direction : Direction)
    (e : ProgressEntry) : Bool :=
  decide (e.lesson ∈ lessons) && decide (e.direction = direction)

/-- resetProgress (part_000 lines 114-129): collect the keys of matching
entries, then delete them. -/
def resetProgress (lessons : List Nat) (direction : Direction)
    (progress : Ledger) : Ledger :=
  let keysToDelete := progress.foldl
    (fun acc p => if resetMatch lessons direction p.2 then acc ++ [p.1] else acc) []
  keysToDelete.foldl objDelete progress

/-- The condition of getProgressStats (part_000 line 138). -/
def statsMatch (lessons : List Nat) (direction : Direction)
    (e : ProgressEntry) : Bool :=
  decide (e.lesson ∈ lessons) && decide (e.direction = direction) && e.correct

/-! #### IEEE-754 binary64 model

JavaScript numbers are binary64 doubles; `(correctCount / totalWords) *
100` performs two correctly-rounded (round-to-nearest, ties-to-even)
double operations on nonnegative operands.  A double value is represented
exactly as an integer significand times a power of two, not necessarily
normalized; the rounding scale is 52 below the value's binade, with the
subnormal cutoff at 2^(-1074).  Overflow to Infinity (magnitudes at and
beyond 2^1024, which would take a ledger of at least 2^1014 entries) is
not modelled; the integer operands themselves (a list length and the word
count) are exact in binary64 up to 2^53. -/

/-- `⌊log2 n⌋` by structural recursion on a fuel bound (`n` itself
suffices, since the argument at least halves each step): `Nat.log2` in a
kernel-reducible form. -/
def log2Aux : Nat → Nat → Nat
  | 0, _ => 0
  | fuel + 1, n => if 2 ≤ n then log2Aux fuel (n / 2) + 1 else 0

/-- `⌊log2 n⌋` (0 at 0): the index of the leading binary digit. -/
def natLog2 (n : Nat) : Nat := log2Aux n n

/-- Round `n / d` (with `d > 0`) to an integer, ties to even. -/
def rheNat (n d : ℕ) : ℕ :=
  let q := n / d
  let r := n % d
  if 2 * r < d then q
  else if d < 2 * r then q + 1
  else if q % 2 = 0 then q else q + 1

/-- The binary64 rounding scale for a value in the binade `[2^e, 2^(e+1))`:
52 bits below the leading bit, cut off at the subnormal scale. -/
def fpScale (e : ℤ) : ℤ := max (e - 52) (-1074)

/-- Whether `c / t < 2^e`, by cross multiplication. -/
def ltPow2 (c t : ℕ) (e : ℤ) : Bool :=
  if 0 ≤ e then decide (c < t * 2 ^ e.toNat)
  else decide (c * 2 ^ (-e).toNat < t)

/-- A nonnegative finite binary64 value, as the exact dyadic `m * 2^k`. -/
structure FP where
  m : ℕ
  k : ℤ
deriving DecidableEq

/-- Correctly rounded double division `c / t` of nonnegative integers
(`t > 0`): locate the quotient's binade through `natLog2`, then round
the significand half-to-even at the binade's scale. -/
def fpDivNat (c t : ℕ) : FP :=
  if c = 0 then ⟨0, 0⟩
  else
    let e0 : ℤ := (natLog2 c : ℤ) - (natLog2 t : ℤ)
    let e := if ltPow2 c t e0 then e0 - 1 else e0
    let scale := fpScale e
    if 0 ≤ scale then ⟨rheNat c (t * 2 ^ scale.toNat), scale⟩
    else ⟨rheNat (c * 2 ^ (-scale).toNat) t, scale⟩

/-- Round an exact dyadic `m * 2^k` to the nearest double. -/
def roundDyadic (m : ℕ) (k : ℤ) : FP :=
  if m = 0 then ⟨0, 0⟩
  else
    let e : ℤ := (natLog2 m : ℤ) + k
    let scale := fpScale e
    let shift := k - scale
    if 0 ≤ shift then ⟨m * 2 ^ shift.toNat, scale⟩
    else ⟨rheNat m (2 ^ (-shift).toNat), scale⟩

/-- Correctly rounded double multiplication by the exact constant 100. -/
def fpMul100 (x : FP) : FP := roundDyadic (x.m * 100) x.k

/-- `Math.round` of the exact value of a double `m * 2^k`: the closest
integer, halfway cases toward positive infinity (the ECMA-262 definition;
`⌊m/2^j + 1/2⌋ = (2m + 2^j) / 2^(j+1)` in integer arithmetic). -/
def jsRoundFP (x : FP) : ℤ :=
  if 0 ≤ x.k then ((x.m * 2 ^ x.k.toNat : ℕ) : ℤ)
  else (((2 * x.m + 2 ^ (-x.k).toNat) / 2 ^ ((-x.k).toNat + 1) : ℕ) : ℤ)

/-- `Math.round` on an exact rational — the claim's idealized reading
`round(correctCount / totalWords × 100)`, with no intermediate
floating-point rounding. -/
def jsRound (q : ℚ) : ℤ := ⌊q + 1/2⌋

/-- The model reproduces the actual doubles: `23 / 40` is the double
`5179139571476070 * 2^(-53)` (0.575 rounds down), and multiplying it by
100 gives `8092405580431359 * 2^(-47)` = 57.49999999999999289…. -/
theorem fpDivNat_23_40 :
    fpDivNat 23 40 = ⟨5179139571476070, -53⟩ ∧
    fpMul100 (fpDivNat 23 40) = ⟨8092405580431359, -47⟩ := by
  constructor <;> decide

/-- The record getProgressStats returns. -/
structure ProgressStats where
  correctCount : Nat
  totalWords : Nat
  percentage : ℤ
deriving DecidableEq

/-- getProgressStats (part_000 lines 132-148);
`Math.round((correctCount / totalWords) * 100)` evaluated in binary64. -/
def getProgressStats (lessons : List Nat) (direction : Direction)
    (totalWords : Nat) (progress : Ledger) : ProgressStats :=
  let correctCount := progress.foldl
    (fun n p => if statsMatch lessons direction p.2 then n + 1 else n) 0
  ⟨correctCount, totalWords,
    if 0 < totalWords then jsRoundFP (fpMul100 (fpDivNat correctCount totalWords))
    else 0⟩

/-! ### Properties of the save loop -/

theorem saveStep_eq (direction : Direction) (now : Str)
    (answers : List AnswerResult) (i : Nat) (wp : WordPair) (L : Ledger) :
    saveStep direction now answers i wp L =
      if wp.lesson ≠ 0 ∧ fullVerdictAt answers i = true then
        objSet L (keyFor direction wp) (mkMasteredEntry wp direction now)
      else L := by
  unfold saveStep fullVerdictAt
  by_cases h0 : wp.lesson = 0
  · simp [h0]
  · cases ha : answers.get? i with
    | none => simp [h0, ha]
    | some a => by_cases hf : isFullVerdict a <;> simp [h0, ha, hf]

theorem saveQuizAux_correct_stable (direction : Direction) (now : Str)
    (answers : List AnswerResult) :
    ∀ (wps : List WordPair) (i : Nat) (L : Ledger) (k : Str),
      (∃ e, objGet L k = some e ∧ e.correct = true) →
      ∃ e, objGet (saveQuizAux direction now answers i wps L) k = some e ∧
        e.correct = true := by
  intro wps
  induction wps with
  | nil => intro i L k h; exact h
  | cons wp rest ih =>
    intro i L k h
    apply ih (i + 1)
    rw [saveStep_eq]
    split_ifs with hw
    · by_cases hk : keyFor direction wp = k
      · subst hk
        exact ⟨_, objGet_objSet_self _ _ _, rfl⟩
      · rw [objGet_objSet_ne _ _ _ _ hk]
        exact h
    · exact h

theorem saveQuizAux_written (direction : Direction) (now : Str)
    (answers : List AnswerResult) :
    ∀ (wps : List WordPair) (i : Nat) (L : Ledger) (j : Nat) (hj : j < wps.length),
      (wps.get ⟨j, hj⟩).lesson ≠ 0 → fullVerdictAt answers (i + j) = true →
      ∃ e, objGet (saveQuizAux direction now answers i wps L)
          (keyFor direction (wps.get ⟨j, hj⟩)) = some e ∧ e.correct = true := by
  intro wps
  induction wps with
  | nil => intro i L j hj; simp at hj
  | cons wp rest ih =>
    intro i L j hj h0 hf
    cases j with
    | zero =>
      simp only [List.get] at h0 ⊢
      show ∃ e, objGet (saveQuizAux direction now answers (i + 1) rest
        (saveStep direction now answers i wp L)) (keyFor direction wp) =
          some e ∧ e.correct = true
      apply saveQuizAux_correct_stable
      rw [saveStep_eq]
      rw [if_pos ⟨h0, by simpa using hf⟩]
      exact ⟨_, objGet_objSet_self _ _ _, rfl⟩
    | succ j' =>
      simp only [List.get] at h0 ⊢
      have hf' : fullVerdictAt answers ((i + 1) + j') = true := by
        have : (i + 1) + j' = i + (j' + 1) := by omega
        rw [this]; exact hf
      exact ih (i + 1) _ j' (Nat.lt_of_succ_lt_succ hj) h0 hf'

theorem saveQuizAux_untouched (direction : Direction) (now : Str)
    (answers : List AnswerResult) :
    ∀ (wps : List WordPair) (i : Nat) (L : Ledger) (k : Str),
      (∀ j (hj : j < wps.length), (wps.get ⟨j, hj⟩).lesson ≠ 0 →
        fullVerdictAt answers (i + j) = true →
        keyFor direction (wps.get ⟨j, hj⟩) ≠ k) →
      objGet (saveQuizAux direction now answers i wps L) k = objGet L k := by
  intro wps
  induction wps with
  | nil => intro i L k _; rfl
  | cons wp rest ih =>
    intro i L k hk
    have hrest : ∀ j (hj : j < rest.length), (rest.get ⟨j, hj⟩).lesson ≠ 0 →
        fullVerdictAt answers ((i + 1) + j) = true →
        keyFor direction (rest.get ⟨j, hj⟩) ≠ k := by
      intro j hj h0 hf
      have : (i + 1) + j = i + (j + 1) := by omega
      rw [this] at hf
      exact hk (j + 1) (Nat.succ_lt_succ hj) h0 hf
    show objGet (saveQuizAux direction now answers (i + 1) rest
      (saveStep direction now answers i wp L)) k = objGet L k
    rw [ih (i + 1) _ k hrest, saveStep_eq]
    split_ifs with hw
    · exact objGet_objSet_ne _ _ _ _
        (hk 0 (Nat.succ_pos _) hw.1 (by simpa using hw.2))
    · rfl

theorem saveQuizAux_last_write (direction : Direction) (now : Str)
    (answers : List AnswerResult) :
    ∀ (wps : List WordPair) (i : Nat) (L : Ledger) (j : Nat) (hj : j < wps.length),
      (wps.get ⟨j, hj⟩).lesson ≠ 0 → fullVerdictAt answers (i + j) = true →
      (∀ j' (hj' : j' < wps.length), j' ≠ j →
        keyFor direction (wps.get ⟨j', hj'⟩) ≠ keyFor direction (wps.get ⟨j, hj⟩)) →
      objGet (saveQuizAux direction now answers i wps L)
          (keyFor direction (wps.get ⟨j, hj⟩)) =
        some (mkMasteredEntry (wps.get ⟨j, hj⟩) direction now) := by
  intro wps
  induction wps with
  | nil => intro i L j hj; simp at hj
  | cons wp rest ih =>
    intro i L j hj h0 hf hdist
    cases j with
    | zero =>
      simp only [List.get] at h0 hdist ⊢
      have huntouched : ∀ j2 (hj2 : j2 < rest.length),
          (rest.get ⟨j2, hj2⟩).lesson ≠ 0 →
          fullVerdictAt answers ((i + 1) + j2) = true →
          keyFor direction (rest.get ⟨j2, hj2⟩) ≠ keyFor direction wp := by
        intro j2 hj2 _ _
        exact hdist (j2 + 1) (Nat.succ_lt_succ hj2) (Nat.succ_ne_zero _)
      show objGet (saveQuizAux direction now answers (i + 1) rest
        (saveStep direction now answers i wp L)) (keyFor direction wp) =
          some (mkMasteredEntry wp direction now)
      rw [saveQuizAux_untouched direction now answers rest (i + 1) _ _ huntouched]
      rw [saveStep_eq, if_pos ⟨h0, by simpa using hf⟩]
      exact objGet_objSet_self _ _ _
    | succ j' =>
      simp only [List.get] at h0 hdist ⊢
      have hf' : fullVerdictAt answers ((i + 1) + j') = true := by
        have : (i + 1) + j' = i + (j' + 1) := by omega
        rw [this]; exact hf
      have hdist' : ∀ j2 (hj2 : j2 < rest.length), j2 ≠ j' →
          keyFor direction (rest.get ⟨j2, hj2⟩) ≠
            keyFor direction (rest.get ⟨j', Nat.lt_of_succ_lt_succ hj⟩) := by
        intro j2 hj2 hne
        exact hdist (j2 + 1) (Nat.succ_lt_succ hj2) (by omega)
      exact ih (i + 1) _ j' (Nat.lt_of_succ_lt_succ hj) h0 hf' hdist'

theorem saveQuizAux_mem_prov (direction : Direction) (now : Str)
    (answers : List AnswerResult) :
    ∀ (wps : List WordPair) (i : Nat) (L : Ledger) (p : Str × ProgressEntry),
      p ∈ saveQuizAux direction now answers i wps L →
      p ∈ L ∨ ∃ j, ∃ hj : j < wps.length,
        (wps.get ⟨j, hj⟩).lesson ≠ 0 ∧ fullVerdictAt answers (i + j) = true ∧
        p = (keyFor direction (wps.get ⟨j, hj⟩),
          mkMasteredEntry (wps.get ⟨j, hj⟩) direction now) := by
  intro wps
  induction wps with
  | nil => intro i L p h; exact Or.inl h
  | cons wp rest ih =>
    intro i L p h
    rcases ih (i + 1) _ p h with h' | ⟨j, hj, h0, hf, hp⟩
    · rw [saveStep_eq] at h'
      split_ifs at h' with hw
      · rcases mem_objSet _ _ _ p h' with hmem | heq
        · exact Or.inl hmem
        · refine Or.inr ⟨0, Nat.succ_pos _, ?_⟩
          simp only [List.get]
          exact ⟨hw.1, by simpa using hw.2, heq⟩
      · exact Or.inl h'
    · refine Or.inr ⟨j + 1, Nat.succ_lt_succ hj, ?_⟩
      simp only [List.get]
      have : i + (j + 1) = (i + 1) + j := by omega
      rw [this]
      exact ⟨h0, hf, hp⟩

/-! ### Fold characterizations -/

theorem foldl_push_eq {α β : Type} (p : α → Bool) (f : α → β) :
    ∀ (l : List α) (init : List β),
      l.foldl (fun acc x => if p x then acc ++ [f x] else acc) init =
        init ++ (l.filter p).map f := by
  intro l
  induction l with
  | nil => intro init; simp
  | cons x rest ih =>
    intro init
    by_cases hx : p x
    · simp [List.foldl_cons, List.filter_cons, hx, ih]
    · simp [List.foldl_cons, List.filter_cons, hx, ih]

theorem foldl_count_eq {α : Type} (p : α → Bool) :
    ∀ (l : List α) (n : Nat),
      l.foldl (fun n x => if p x then n + 1 else n) n = n + (l.filter p).length := by
  intro l
  induction l with
  | nil => intro n; simp
  | cons x rest ih =>
    intro n
    by_cases hx : p x
    · simp [List.foldl_cons, List.filter_cons, hx, ih]
      omega
    · simp [List.foldl_cons, List.filter_cons, hx, ih]

theorem mem_getCorrectWordsForLessons (lessons : List Nat)
    (direction : Direction) (L : Ledger) (w : CorrectWord) :
    w ∈ getCorrectWordsForLessons lessons direction L ↔
      ∃ p ∈ L, correctMatch lessons direction p.2 = true ∧
        w = ⟨p.2.greek, p.2.bulgarian, p.2.lesson⟩ := by
  unfold getCorrectWordsForLessons
  rw [foldl_push_eq]
  simp only [List.nil_append, List.mem_map, List.mem_filter]
  constructor
  · rintro ⟨p, ⟨hp, hm⟩, hw⟩
    exact ⟨p, hp, hm, hw.symm⟩
  · rintro ⟨p, hp, hm, hw⟩
    exact ⟨p, ⟨hp, hm⟩, hw.symm⟩

/-! ### Claim C1 -/

/-- C1: for a completed exam session (an answer recorded for every word,
every word carrying a truthy lesson), summary-time progress saving
creates or overwrites a mastery-ledger entry at a word's progress key if
and only if some word with that key had a full verdict
(`correct === true` and not `partial_credit`): full verdicts leave a
`correct: true` entry at their key, and any key not belonging to a
full-verdict word is bound exactly as before — partial and none verdicts
never create or overwrite an entry. -/
theorem saveQuizProgress_full_verdict_iff
    (direction : Direction) (now : Str) (wordPairs : List WordPair)
    (answers : List AnswerResult) (progress : Ledger)
    (hcomplete : answers.length = wordPairs.length)
    (hlessons : ∀ wp ∈ wordPairs, wp.lesson ≠ 0) :
    (∀ i (hi : i < wordPairs.length), fullVerdictAt answers i = true →
      ∃ e, objGet (saveQuizProgress direction now wordPairs answers progress)
          (keyFor direction (wordPairs.get ⟨i, hi⟩)) = some e ∧
        e.correct = true) ∧
    (∀ k : Str,
      (∀ i (hi : i < wordPairs.length), fullVerdictAt answers i = true →
        keyFor direction (wordPairs.get ⟨i, hi⟩) ≠ k) →
      objGet (saveQuizProgress direction now wordPairs answers progress) k =
        objGet progress k) := by
  constructor
  · intro i hi hf
    exact saveQuizAux_written direction now answers wordPairs 0 progress i hi
      (hlessons _ (List.get_mem _ _ _)) (by simpa using hf)
  · intro k hk
    exact saveQuizAux_untouched direction now answers wordPairs 0 progress k
      (fun j hj h0 hf => hk j hj (by simpa using hf))

/-- Concrete word pairs and answers used by the witnesses: λ/л and γ/г in
lesson 1, the first answered with a full verdict, the second with partial
credit. -/
def wpLambda : WordPair := ⟨[0x3BB], [0x43B], 1⟩

def wpGamma : WordPair := ⟨[0x3B3], [0x433], 1⟩

def ansFull : AnswerResult := ⟨true, false⟩

def ansPartial : AnswerResult := ⟨false, true⟩

/-- Witness for `saveQuizProgress_full_verdict_iff`: a two-word session
where the first word is fully correct and the second only partial; the
first word's key gains a correct entry and the second word's key stays
absent. -/
theorem saveQuizProgress_full_verdict_iff_witness :
    (∃ e, objGet (saveQuizProgress .greekToBulgarian [] [wpLambda, wpGamma]
        [ansFull, ansPartial] []) (keyFor .greekToBulgarian wpLambda) =
        some e ∧ e.correct = true) ∧
    objGet (saveQuizProgress .greekToBulgarian [] [wpLambda, wpGamma]
        [ansFull, ansPartial] []) (keyFor .greekToBulgarian wpGamma) =
      objGet ([] : Ledger) (keyFor .greekToBulgarian wpGamma) := by
  have h := saveQuizProgress_full_verdict_iff .greekToBulgarian []
    [wpLambda, wpGamma] [ansFull, ansPartial] [] (by decide) (by decide)
  exact ⟨h.1 0 (by decide) (by decide), h.2 _ (by decide)⟩

/-! ### Claim C2 -/

theorem keyFor_congr (direction : Direction) (w1 w2 : WordPair)
    (hg : w1.greek = w2.greek) (hb : w1.bulgarian = w2.bulgarian)
    (hl : w1.lesson = w2.lesson) : keyFor direction w1 = keyFor direction w2 := by
  unfold keyFor progressKey createWordKey
  rw [hg, hb, hl]

/-- C2: after a completed session's summary is saved (answers recorded for
every word, truthy lessons, pairwise distinct progress keys), a word with
a full verdict whose lesson is in the selected lessons appears in the
excluded-words list computed for the same direction and lessons, while a
word without a full verdict — in particular one graded only partial —
does not appear there, provided the ledger held no prior correct entry
for it. -/
theorem mastery_exclusion_after_summary
    (direction : Direction) (now : Str) (wordPairs : List WordPair)
    (answers : List AnswerResult) (progress : Ledger) (lessons : List Nat)
    (hcomplete : answers.length = wordPairs.length)
    (hlessons : ∀ wp ∈ wordPairs, wp.lesson ≠ 0)
    (hinj : ∀ i (hi : i < wordPairs.length) j (hj : j < wordPairs.length),
      keyFor direction (wordPairs.get ⟨i, hi⟩) =
        keyFor direction (wordPairs.get ⟨j, hj⟩) → i = j) :
    (∀ i (hi : i < wordPairs.length), fullVerdictAt answers i = true →
      (wordPairs.get ⟨i, hi⟩).lesson ∈ lessons →
      (⟨(wordPairs.get ⟨i, hi⟩).greek, (wordPairs.get ⟨i, hi⟩).bulgarian,
        (wordPairs.get ⟨i, hi⟩).lesson⟩ : CorrectWord) ∈
        getCorrectWordsForLessons lessons direction
          (saveQuizProgress direction now wordPairs answers progress)) ∧
    (∀ i (hi : i < wordPairs.length), fullVerdictAt answers i = false →
      (∀ p ∈ progress, ¬(p.2.correct = true ∧ p.2.direction = direction ∧
        p.2.greek = (wordPairs.get ⟨i, hi⟩).greek ∧
        p.2.bulgarian = (wordPairs.get ⟨i, hi⟩).bulgarian ∧
        p.2.lesson = (wordPairs.get ⟨i, hi⟩).lesson)) →
      ∀ w ∈ getCorrectWordsForLessons lessons direction
          (saveQuizProgress direction now wordPairs answers progress),
        ¬(w.greek = (wordPairs.get ⟨i, hi⟩).greek ∧
          w.bulgarian = (wordPairs.get ⟨i, hi⟩).bulgarian ∧
          w.lesson = (wordPairs.get ⟨i, hi⟩).lesson)) := by
  constructor
  · intro i hi hf hlmem
    have hdist : ∀ j' (hj' : j' < wordPairs.length), j' ≠ i →
        keyFor direction (wordPairs.get ⟨j', hj'⟩) ≠
          keyFor direction (wordPairs.get ⟨i, hi⟩) := by
      intro j' hj' hne heq
      exact hne (hinj j' hj' i hi heq)
    have hget := saveQuizAux_last_write direction now answers wordPairs 0
      progress i hi (hlessons _ (List.get_mem _ _ _)) (by simpa using hf) hdist
    have hmem := objGet_mem _ _ _ hget
    rw [mem_getCorrectWordsForLessons]
    refine ⟨_, hmem, ?_, rfl⟩
    show correctMatch lessons direction
      (mkMasteredEntry (wordPairs.get ⟨i, hi⟩) direction now) = true
    unfold correctMatch mkMasteredEntry
    simp only [Bool.and_eq_true, decide_eq_true_eq]
    exact ⟨⟨trivial, trivial⟩, hlmem⟩
  · intro i hi hf hclean w hw ⟨hg, hb, hl⟩
    rw [mem_getCorrectWordsForLessons] at hw
    obtain ⟨p, hp, hm, hwp⟩ := hw
    have hpg : p.2.greek = (wordPairs.get ⟨i, hi⟩).greek := by
      rw [hwp] at hg; exact hg
    have hpb : p.2.bulgarian = (wordPairs.get ⟨i, hi⟩).bulgarian := by
      rw [hwp] at hb; exact hb
    have hpl : p.2.lesson = (wordPairs.get ⟨i, hi⟩).lesson := by
      rw [hwp] at hl; exact hl
    unfold correctMatch at hm
    simp only [Bool.and_eq_true, decide_eq_true_eq] at hm
    rcases saveQuizAux_mem_prov direction now answers wordPairs 0 progress p hp with
      hold | ⟨j, hj, h0, hfj, hpe⟩
    · exact hclean p hold ⟨hm.1.1, hm.1.2, hpg, hpb, hpl⟩
    · have hje : p.2 = mkMasteredEntry (wordPairs.get ⟨j, hj⟩) direction now := by
        rw [hpe]
      have hgj : (wordPairs.get ⟨j, hj⟩).greek = (wordPairs.get ⟨i, hi⟩).greek := by
        rw [hje] at hpg; exact hpg
      have hbj : (wordPairs.get ⟨j, hj⟩).bulgarian =
          (wordPairs.get ⟨i, hi⟩).bulgarian := by
        rw [hje] at hpb; exact hpb
      have hlj : (wordPairs.get ⟨j, hj⟩).lesson = (wordPairs.get ⟨i, hi⟩).lesson := by
        rw [hje] at hpl; exact hpl
      have hkey := keyFor_congr direction _ _ hgj hbj hlj
      have hij : j = i := hinj j hj i hi hkey
      subst hij
      rw [show (0 : Nat) + j = j from by omega] at hfj
      rw [hf] at hfj
      exact Bool.false_ne_true hfj

/-- Witness for `mastery_exclusion_after_summary`: in the two-word session,
the fully-correct word λ/л is listed among the excluded words for lessons
[1] while the partial-credit word γ/г is not. -/
theorem mastery_exclusion_after_summary_witness :
    ((⟨[0x3BB], [0x43B], 1⟩ : CorrectWord) ∈
      getCorrectWordsForLessons [1] .greekToBulgarian
        (saveQuizProgress .greekToBulgarian [] [wpLambda, wpGamma]
          [ansFull, ansPartial] [])) ∧
    (∀ w ∈ getCorrectWordsForLessons [1] .greekToBulgarian
        (saveQuizProgress .greekToBulgarian [] [wpLambda, wpGamma]
          [ansFull, ansPartial] []),
      ¬(w.greek = wpGamma.greek ∧ w.bulgarian = wpGamma.bulgarian ∧
        w.lesson = wpGamma.lesson)) := by
  have h := mastery_exclusion_after_summary .greekToBulgarian []
    [wpLambda, wpGamma] [ansFull, ansPartial] [] [1] (by decide) (by decide)
    (by decide)
  exact ⟨h.1 0 (by decide) (by decide) (by decide),
    h.2 1 (by decide) (by decide) (fun p hp => absurd hp (List.not_mem_nil p))⟩

/-! ### Claim C7 -/

theorem foldl_objDelete_eq {α : Type} :
    ∀ (ks : List Str) (l : List (Str × α)),
      ks.foldl objDelete l = l.filter fun p => !decide (p.1 ∈ ks) := by
  intro ks
  induction ks with
  | nil =>
    intro l
    simp [List.foldl_nil]
  | cons k ks ih =>
    intro l
    rw [List.foldl_cons, ih]
    unfold objDelete
    rw [List.filter_filter]
    apply List.filter_congr
    intro p _
    by_cases h1 : p.1 = k <;> by_cases h2 : p.1 ∈ ks <;>
      simp [h1, h2, List.mem_cons]

/-- C7: resetProgress deletes exactly the ledger entries whose lesson is
among the given lessons and whose direction equals the given direction;
all other entries survive unchanged, in order.  The hypothesis states the
standing JS-object invariant that ledger keys are distinct. -/
theorem resetProgress_deletes_exactly (lessons : List Nat)
    (direction : Direction) (progress : Ledger)
    (hnodup : (progress.map Prod.fst).Nodup) :
    resetProgress lessons direction progress =
      progress.filter fun p => !resetMatch lessons direction p.2 := by
  unfold resetProgress
  rw [foldl_push_eq, List.nil_append, foldl_objDelete_eq]
  apply List.filter_congr
  intro p hp
  have hiff : (p.1 ∈ (progress.filter fun q =>
      resetMatch lessons direction q.2).map Prod.fst) ↔
      resetMatch lessons direction p.2 = true := by
    constructor
    · intro hmem
      rw [List.mem_map] at hmem
      obtain ⟨q, hq, hq1⟩ := hmem
      rw [List.mem_filter] at hq
      have : q = p := List.inj_on_of_nodup_map hnodup hq.1 hp hq1
      rw [← this]
      exact hq.2
    · intro hmatch
      rw [List.mem_map]
      exact ⟨p, List.mem_filter.mpr ⟨hp, hmatch⟩, rfl⟩
  by_cases hm : resetMatch lessons direction p.2 = true
  · simp [hiff.mpr hm, hm]
  · have : ¬(p.1 ∈ (progress.filter fun q =>
        resetMatch lessons direction q.2).map Prod.fst) := fun h => hm (hiff.mp h)
    simp only [Bool.not_eq_true] at hm
    simp [this, hm]

/-- A concrete two-entry ledger for the resetProgress witness: one entry
matches (lesson 1, Greek→Bulgarian), the other does not (lesson 2). -/
def ledgerW : Ledger :=
  [(keyFor .greekToBulgarian wpLambda,
      mkMasteredEntry wpLambda .greekToBulgarian []),
   (keyFor .greekToBulgarian ⟨[0x3B3], [0x433], 2⟩,
      mkMasteredEntry ⟨[0x3B3], [0x433], 2⟩ .greekToBulgarian [])]

/-- Witness for `resetProgress_deletes_exactly` on the concrete ledger. -/
theorem resetProgress_deletes_exactly_witness :
    resetProgress [1] .greekToBulgarian ledgerW =
      ledgerW.filter fun p => !resetMatch [1] .greekToBulgarian p.2 :=
  resetProgress_deletes_exactly [1] .greekToBulgarian ledgerW (by decide)

/-! ### Claim C8 -/

/-- A ledger of 23 distinct-keyed entries all matching lesson 1 in the
Greek→Bulgarian direction, for the stats counterexample. -/
def statsLedger23 : Ledger :=
  (List.range 23).map fun i =>
    (natCodes i, ⟨[0x3BB], [0x43B], 1, .greekToBulgarian, true, []⟩)

/-- C8 counterexample: at correctCount = 23 and totalWords = 40 the
program evaluates `(23 / 40) * 100` in binary64 as 57.49999999999999289…
and `Math.round` returns 57, whereas the claim's formula
`round(correctCount / totalWords × 100)` — the exact rational rounding of
57.5 — gives 58. -/
theorem getProgressStats_float_counterexample :
    (getProgressStats [1] .greekToBulgarian 40 statsLedger23).correctCount = 23 ∧
    (getProgressStats [1] .greekToBulgarian 40 statsLedger23).percentage = 57 ∧
    jsRound ((23 : ℚ) / 40 * 100) = 58 := by
  refine ⟨by decide, by decide, ?_⟩
  unfold jsRound
  norm_num

/-- C8 (amended): getProgressStats never divides by zero: its
correctCount is the number of ledger entries marked correct that match
the selected lessons and direction, and its percentage is `Math.round`
of the IEEE-754 binary64 evaluation of `(correctCount / totalWords) *
100` when `totalWords > 0` — which can land one below the exact rational
rounding, e.g. 57 instead of 58 at 23/40 — and `0` when
`totalWords = 0`. -/
theorem getProgressStats_safe (lessons : List Nat) (direction : Direction)
    (totalWords : Nat) (progress : Ledger) :
    (getProgressStats lessons direction totalWords progress).correctCount =
      (progress.filter fun p => statsMatch lessons direction p.2).length ∧
    (getProgressStats lessons direction totalWords progress).percentage =
      if 0 < totalWords then
        jsRoundFP (fpMul100 (fpDivNat
          (progress.filter fun p => statsMatch lessons direction p.2).length
          totalWords))
      else 0 := by
  have hcount : progress.foldl
      (fun n p => if statsMatch lessons direction p.2 then n + 1 else n) 0 =
      (progress.filter fun p => statsMatch lessons direction p.2).length := by
    rw [foldl_count_eq]
    omega
  constructor
  · exact hcount
  · show (if 0 < totalWords then jsRoundFP _ else 0) = _
    rw [hcount]

/-! ### Claim C9: getProgressData (part_000 lines 35-57)

The stored localStorage value is modelled after `JSON.parse`: either the
key is absent, or the stored text is malformed (parse throws, caught by
the surrounding try), or it parses to a JSON value.  Arrays are not
modelled.  Reading `.wordProgress` off `null` throws a TypeError (caught);
reading it off another primitive yields `undefined`; the sloppy-mode
assignment `parsed.wordProgress = {}` on a primitive is a silent no-op. -/

/-- A parsed JSON value (arrays elided; objects keep only their fields). -/
inductive Json where
  | jnull
  | jbool (b : Bool)
  | jnum (n : Int)
  | jstr (s : Str)
  | jobj (fields : List (Str × Json))

/-- JavaScript truthiness of a JSON value. -/
def jsonTruthy : Json → Bool
  | .jnull => false
  | .jbool b => b
  | .jnum n => decide (n ≠ 0)
  | .jstr s => decide (s ≠ [])
  | .jobj _ => true

/-- Truthiness of a possibly-undefined value (`undefined` is falsy). -/
def optTruthy : Option Json → Bool
  | none => false
  | some v => jsonTruthy v

/-- The code points of the property name `wordProgress`. -/
def wpField : Str := strCodes "wordProgress"

/-- The code points of the property name `version`. -/
def versionField : Str := strCodes "version"

/-- What `localStorage.getItem(STORAGE_KEY)` followed by `JSON.parse`
produces. -/
inductive StoredProgress where
  | absent
  | malformed
  | value (v : Json)

/-- The fallback object `{wordProgress: {}, version: 1}`. -/
def defaultProgress : Json :=
  .jobj [(wpField, .jobj []), (versionField, .jnum 1)]

/-- Reading `parsed.wordProgress`: throws on null, is `undefined` on other
primitives, looks the field up on an object. -/
def readWordProgress : Json → Except Unit (Option Json)
  | .jnull => .error ()
  | .jobj fields => .ok (objGet fields wpField)
  | _ => .ok none

/-- The assignment `parsed.wordProgress = {}`: updates an object, is a
silent no-op on a primitive (sloppy mode). -/
def writeEmptyWordProgress : Json → Json
  | .jobj fields => .jobj (objSet fields wpField (.jobj []))
  | v => v

/-- getProgressData: absent and malformed stored values fall back to the
default; a TypeError while reading `.wordProgress` is caught and also
falls back; otherwise a falsy `wordProgress` field is replaced by `{}`
and the parsed value is returned. -/
def getProgressData : StoredProgress → Json
  | .absent => defaultProgress
  | .malformed => defaultProgress
  | .value v =>
    match readWordProgress v with
    | .error _ => defaultProgress
    | .ok f => if optTruthy f then v else writeEmptyWordProgress v

/-- Whether a value is an object whose `wordProgress` field is an object
(a usable word-progress map). -/
def hasWordProgressMap : Json → Bool
  | .jobj fields =>
    match objGet fields wpField with
    | some (.jobj _) => true
    | _ => false
  | _ => false

/-- C9 counterexample: the stored text `5` is well-formed JSON missing its
`wordProgress` field, yet getProgressData returns the bare number 5 (the
sloppy-mode property assignment on a primitive silently does nothing), not
an object containing a `wordProgress` map — refuting the claim that any
persisted content yields an object with a `wordProgress` map. -/
theorem getProgressData_primitive_counterexample :
    getProgressData (.value (.jnum 5)) = .jnum 5 ∧
    hasWordProgressMap (getProgressData (.value (.jnum 5))) = false := by
  constructor <;> rfl

/-- C9 (amended): getProgressData is total — it never propagates a parse
error — and it returns an object containing a `wordProgress` map whenever
the stored value is absent, malformed JSON, a JSON null, or an object
whose `wordProgress` field is missing, falsy, or itself an object; a
stored non-object JSON value, however, is returned unchanged and carries
no `wordProgress` map. -/
theorem getProgressData_wordProgress_total (st : StoredProgress)
    (h : st = .absent ∨ st = .malformed ∨ st = .value .jnull ∨
      ∃ fields, st = .value (.jobj fields) ∧
        (optTruthy (objGet fields wpField) = false ∨
          ∃ wpf, objGet fields wpField = some (.jobj wpf))) :
    hasWordProgressMap (getProgressData st) = true := by
  rcases h with h | h | h | ⟨fields, h, hf⟩
  · rw [h]; rfl
  · rw [h]; rfl
  · rw [h]; rfl
  · rw [h]
    show hasWordProgressMap
      (match readWordProgress (.jobj fields) with
        | .error _ => defaultProgress
        | .ok f => if optTruthy f then Json.jobj fields
            else writeEmptyWordProgress (.jobj fields)) = true
    rcases hf with hf | ⟨wpf, hf⟩
    · rw [show readWordProgress (.jobj fields) = .ok (objGet fields wpField) from rfl]
      show hasWordProgressMap (if optTruthy (objGet fields wpField) then
        Json.jobj fields else writeEmptyWordProgress (.jobj fields)) = true
      rw [hf, if_neg (by simp)]
      show (match objGet (objSet fields wpField (Json.jobj [])) wpField with
        | some (.jobj _) => true
        | _ => false) = true
      rw [objGet_objSet_self]
    · rw [show readWordProgress (.jobj fields) = .ok (objGet fields wpField) from rfl]
      show hasWordProgressMap (if optTruthy (objGet fields wpField) then
        Json.jobj fields else writeEmptyWordProgress (.jobj fields)) = true
      rw [hf]
      rw [if_pos (by rfl)]
      show (match objGet fields wpField with
        | some (.jobj _) => true
        | _ => false) = true
      rw [hf]

/-- Witness for `getProgressData_wordProgress_total`: an absent stored
value yields the default object, which has a `wordProgress` map. -/
theorem getProgressData_wordProgress_total_witness :
    hasWordProgressMap (getProgressData .absent) = true :=
  getProgressData_wordProgress_total .absent (Or.inl rfl)

/-! ### Claim C6: the retake option (part_000 lines 1061-1072) -/

/-- The condition under which showSummary displays the retake section:
the attempt followed training, scored under 100, and word pairs remain
stored for reuse. -/
def retakeSectionVisible (wasTrainingSession : Bool) (scorePercentage : Int)
    (wordPairsLength : Nat) : Bool :=
  wasTrainingSession && decide (scorePercentage < 100) &&
    decide (0 < wordPairsLength)

/-- C6: for a completed attempt (which by the session lifecycle has at
least one word pair), the retake option is shown exactly when the attempt
followed a Training phase and its score percentage is below 100. -/
theorem retakeSectionVisible_iff (wasTrainingSession : Bool)
    (scorePercentage : Int) (wordPairsLength : Nat)
    (hpairs : 0 < wordPairsLength) :
    retakeSectionVisible wasTrainingSession scorePercentage wordPairsLength = true ↔
      (wasTrainingSession = true ∧ scorePercentage < 100) := by
  unfold retakeSectionVisible
  simp [hpairs]

/-- Witness for `retakeSectionVisible_iff` at a 5-question attempt scoring
90 after training. -/
theorem retakeSectionVisible_iff_witness :
    retakeSectionVisible true 90 5 = true ↔ (true = true ∧ (90 : Int) < 100) :=
  retakeSectionVisible_iff true 90 5 (by decide)

/-! ### Claim C4: the per-question countdown (part_000 lines 564-615)

startTimer resets `timeRemaining` to the configured duration and arms a
once-per-second interval; each tick decrements `timeRemaining` and, when
it reaches zero or below, handleTimeout stops the timer and performs the
automatic empty submission (the expiry callback, counted here in
`expirations`).  stopTimer clears the interval.  Ticks only occur while
the interval is armed, so a tick of an inactive timer is a no-op. -/

namespace Timer

/-- The timer-related state: remaining seconds, whether the interval is
armed, and how often the expiry callback has run. -/
structure TimerState where
  remaining : Int
  active : Bool
  expirations : Nat
deriving DecidableEq

/-- startTimer with duration `d` (clearing any previous interval is
implicit: the single `active` flag is overwritten). -/
def startTimer (d : Nat) (s : TimerState) : TimerState :=
  ⟨(d : Int), true, s.expirations⟩

/-- stopTimer: clear the interval. -/
def stopTimer (s : TimerState) : TimerState :=
  { s with active := false }

/-- One interval tick: decrement, and on reaching zero run handleTimeout,
which stops the timer and triggers the expiry submission exactly once. -/
def timerTick (s : TimerState) : TimerState :=
  if s.active then
    if s.remaining - 1 ≤ 0 then
      ⟨s.remaining - 1, false, s.expirations + 1⟩
    else
      { s with remaining := s.remaining - 1 }
  else s

/-- `k` elapsed seconds. -/
def ticks : Nat → TimerState → TimerState
  | 0, s => s
  | k + 1, s => timerTick (ticks k s)

theorem ticks_add (a b : Nat) (s : TimerState) :
    ticks (a + b) s = ticks b (ticks a s) := by
  induction b with
  | zero => rfl
  | succ b ih => rw [show a + (b + 1) = (a + b) + 1 from rfl]; simp [ticks, ih]

theorem ticks_inactive (s : TimerState) (h : s.active = false) :
    ∀ m, ticks m s = s := by
  intro m
  induction m with
  | zero => rfl
  | succ m ih => simp [ticks, ih, timerTick, h]

theorem ticks_startTimer_lt (d : Nat) (s0 : TimerState) :
    ∀ k, k < d → ticks k (startTimer d s0) = ⟨(d : Int) - k, true, s0.expirations⟩ := by
  intro k
  induction k with
  | zero => intro _; simp [ticks, startTimer]
  | succ k ih =>
    intro hk
    rw [ticks, ih (by omega), timerTick]
    have h1 : ((d : Int) - k) - 1 ≤ 0 ↔ False := by
      constructor
      · intro h; omega
      · intro h; exact h.elim
    simp only [if_true]
    rw [if_neg (by omega)]
    have : (d : Int) - k - 1 = (d : Int) - (k + 1 : Nat) := by push_cast; ring
    simp [this]

theorem ticks_startTimer_expire (d : Nat) (hd : 0 < d) (s0 : TimerState) :
    ticks d (startTimer d s0) = ⟨0, false, s0.expirations + 1⟩ := by
  obtain ⟨d', rfl⟩ : ∃ d', d = d' + 1 := ⟨d - 1, by omega⟩
  rw [ticks, ticks_startTimer_lt _ _ d' (by omega), timerTick]
  simp only [if_true]
  rw [if_pos (by push_cast; omega)]
  have : (↑(d' + 1) : Int) - ↑d' - 1 = 0 := by push_cast; ring
  simp [this]

/-- C4: a countdown of positive duration `d` that is never cancelled fires
its expiry callback exactly once, at tick `d` (so at or after `d` ticks),
after which the timer is inactive; and a countdown cancelled after `j < d`
ticks never fires the expiry callback no matter how long the clock keeps
running. -/
theorem timer_expiry_once (d : Nat) (s0 : TimerState) (hd : 0 < d) :
    (∀ k, k < d → (ticks k (startTimer d s0)).expirations = s0.expirations ∧
      (ticks k (startTimer d s0)).active = true) ∧
    (∀ k, d ≤ k → (ticks k (startTimer d s0)).expirations = s0.expirations + 1 ∧
      (ticks k (startTimer d s0)).active = false) ∧
    (∀ j m, j < d →
      (ticks m (stopTimer (ticks j (startTimer d s0)))).expirations =
        s0.expirations) := by
  refine ⟨?_, ?_, ?_⟩
  · intro k hk
    rw [ticks_startTimer_lt d s0 k hk]
    exact ⟨rfl, rfl⟩
  · intro k hk
    obtain ⟨m, rfl⟩ : ∃ m, k = d + m := ⟨k - d, by omega⟩
    rw [ticks_add, ticks_startTimer_expire d hd s0, ticks_inactive _ rfl]
    exact ⟨rfl, rfl⟩
  · intro j m hj
    rw [ticks_startTimer_lt d s0 j hj]
    rw [ticks_inactive _ rfl]
    rfl

/-- Witness for `timer_expiry_once` with duration 5: no expiry during the
first 4 ticks, exactly one from tick 5 on (tick 7 shown), and none ever
after cancelling at tick 3. -/
theorem timer_expiry_once_witness :
    ((ticks 4 (startTimer 5 ⟨0, false, 0⟩)).expirations = 0 ∧
      (ticks 4 (startTimer 5 ⟨0, false, 0⟩)).active = true) ∧
    ((ticks 7 (startTimer 5 ⟨0, false, 0⟩)).expirations = 0 + 1 ∧
      (ticks 7 (startTimer 5 ⟨0, false, 0⟩)).active = false) ∧
    (ticks 9 (stopTimer (ticks 3 (startTimer 5 ⟨0, false, 0⟩)))).expirations = 0 := by
  have h := timer_expiry_once 5 ⟨0, false, 0⟩ (by decide)
  exact ⟨h.1 4 (by decide), h.2.1 7 (by decide), h.2.2 3 9 (by decide)⟩

end Timer

/-! ### Claim C5: one interval at a time, no stale expiries

Here `setInterval`/`clearInterval` identities are tracked explicitly: the
state keeps the list of live intervals (each tagged with the question
index it was started for) plus the `state.timerInterval` slot.  The
user-level operations mirror the question driver: startSession
(displayQuestion → startTimer), submitAnswer (stopTimer first, restart on
a rejected empty manual submission, record otherwise), an interval expiry
(handleTimeout: only effective if its interval is still live), advancing
to the next question (displayQuestion → startTimer), and restartQuiz
(stopTimer). -/

namespace Driver

/-- Where the driver is: setup screen, the quiz question screen (with the
current question either unanswered or answered awaiting the Next click),
or the summary screen. -/
inductive Phase where
  | setup
  | quiz (answered : Bool)
  | summary
deriving DecidableEq

/-- A live `setInterval` handle, tagged with the question it counts for. -/
structure IntervalInfo where
  id : Nat
  question : Nat
deriving DecidableEq

/-- The timer-relevant application state. -/
structure AppState where
  phase : Phase
  currentIndex : Nat
  totalQuestions : Nat
  live : List IntervalInfo
  slot : Option Nat
  nextId : Nat

/-- `clearInterval(i)`. -/
def clearIntervalOp (i : Nat) (s : AppState) : AppState :=
  { s with live := s.live.filter fun e => decide (e.id ≠ i) }

/-- The `if (state.timerInterval) clearInterval(state.timerInterval)`
prologue of startTimer. -/
def clearSlot (s : AppState) : AppState :=
  match s.slot with
  | some i => clearIntervalOp i s
  | none => s

/-- startTimer (part_000 lines 564-583): clear the slot's interval if any,
then arm a fresh interval for the current question. -/
def startTimerOp (s : AppState) : AppState :=
  { clearSlot s with
    live := (clearSlot s).live ++ [⟨(clearSlot s).nextId, (clearSlot s).currentIndex⟩]
    slot := some (clearSlot s).nextId
    nextId := (clearSlot s).nextId + 1 }

/-- stopTimer (part_000 lines 585-590). -/
def stopTimerOp (s : AppState) : AppState :=
  match s.slot with
  | some i => { clearIntervalOp i s with slot := none }
  | none => s

/-- The user-level events that touch the timer. -/
inductive AppOp where
  | startQuiz (n : Nat)
  | submit (emptyManual : Bool)
  | timeoutFire (id : Nat)
  | next
  | restart

/-- One driver step per event (an event on a screen where its button does
not exist is a no-op): startSession displays the first question and starts
its timer; submitAnswer stops the timer first, then either restarts it (a
rejected empty manual submission) or records the answer; handleTimeout is
only effective while its interval is live, and then stops the timer and
records the empty submission; nextQuestion either displays the next
question (starting its timer) or moves to the summary; restartQuiz stops
any running timer and returns to setup. -/
def applyOp (s : AppState) : AppOp → AppState
  | .startQuiz n =>
    if s.phase = .setup ∨ s.phase = .summary then
      startTimerOp { s with
        phase := .quiz false
        currentIndex := 0
        totalQuestions := n }
    else s
  | .submit emptyManual =>
    if s.phase = .quiz false then
      let s1 := stopTimerOp s
      if emptyManual then startTimerOp s1
      else { s1 with phase := .quiz true }
    else s
  | .timeoutFire id =>
    if s.live.any fun e => decide (e.id = id) then
      { stopTimerOp s with phase := .quiz true }
    else s
  | .next =>
    if s.phase = .quiz true then
      if s.currentIndex + 1 < s.totalQuestions then
        startTimerOp { s with
          phase := .quiz false
          currentIndex := s.currentIndex + 1 }
      else { s with
        phase := .summary
        currentIndex := s.currentIndex + 1 }
    else s
  | .restart =>
    { stopTimerOp s with
      phase := .setup
      currentIndex := 0 }

/-- The initial state: setup screen, nothing armed. -/
def initState : AppState := ⟨.setup, 0, 0, [], none, 0⟩

/-- The timer invariant: every live interval is the one in the slot,
counts for the current question, and only exists while that question is
displayed and unanswered — hence at most one interval is ever live and no
expiry can fire against a question that has already advanced. -/
def TimerInv (s : AppState) : Prop :=
  s.live.length ≤ 1 ∧
    ∀ e ∈ s.live, s.slot = some e.id ∧ e.question = s.currentIndex ∧
      s.phase = .quiz false

theorem timerInv_of_live_nil (s : AppState) (h : s.live = []) : TimerInv s := by
  refine ⟨by rw [h]; simp, fun e he => ?_⟩
  rw [h] at he
  exact absurd he (List.not_mem_nil e)

theorem live_nil_of_slot_none (s : AppState) (h : TimerInv s)
    (hs : s.slot = none) : s.live = [] := by
  cases hl : s.live with
  | nil => rfl
  | cons e rest =>
    have := (h.2 e (by rw [hl]; exact List.mem_cons_self _ _)).1
    rw [hs] at this
    exact absurd this (by simp)

theorem live_filter_nil_of_slot (s : AppState) (h : TimerInv s) (i : Nat)
    (hs : s.slot = some i) :
    (s.live.filter fun e => decide (e.id ≠ i)) = [] := by
  rw [List.filter_eq_nil_iff]
  intro e he
  have := (h.2 e he).1
  rw [hs] at this
  simp only [Option.some.injEq] at this
  simp [this]

theorem clearSlot_live_nil (s : AppState) (h : TimerInv s) :
    (clearSlot s).live = [] := by
  unfold clearSlot
  cases hs : s.slot with
  | none =>
    show s.live = []
    exact live_nil_of_slot_none s h hs
  | some i =>
    show (s.live.filter fun e => decide (e.id ≠ i)) = []
    exact live_filter_nil_of_slot s h i hs

theorem clearSlot_phase (s : AppState) : (clearSlot s).phase = s.phase := by
  unfold clearSlot
  cases hs : s.slot <;> rfl

theorem timerInv_startTimerOp (s : AppState) (h : TimerInv s)
    (hphase : s.phase = .quiz false) : TimerInv (startTimerOp s) := by
  constructor
  · show ((clearSlot s).live ++ [_]).length ≤ 1
    rw [clearSlot_live_nil s h]
    simp
  · intro e he
    have he' : e ∈ (clearSlot s).live ++
        [(⟨(clearSlot s).nextId, (clearSlot s).currentIndex⟩ : IntervalInfo)] := he
    rw [clearSlot_live_nil s h] at he'
    simp only [List.nil_append, List.mem_singleton] at he'
    subst he'
    refine ⟨rfl, rfl, ?_⟩
    show (clearSlot s).phase = Phase.quiz false
    rw [clearSlot_phase s, hphase]

theorem stopTimerOp_live_nil (s : AppState) (h : TimerInv s) :
    (stopTimerOp s).live = [] := by
  unfold stopTimerOp
  cases hs : s.slot with
  | none =>
    show s.live = []
    exact live_nil_of_slot_none s h hs
  | some i =>
    show (s.live.filter fun e => decide (e.id ≠ i)) = []
    exact live_filter_nil_of_slot s h i hs

theorem stopTimerOp_phase (s : AppState) : (stopTimerOp s).phase = s.phase := by
  unfold stopTimerOp
  cases hs : s.slot <;> rfl

theorem timerInv_preserved (s : AppState) (op : AppOp) (h : TimerInv s) :
    TimerInv (applyOp s op) := by
  cases op with
  | startQuiz n =>
    simp only [applyOp]
    by_cases hp : s.phase = .setup ∨ s.phase = .summary
    · rw [if_pos hp]
      apply timerInv_startTimerOp _ _ rfl
      apply timerInv_of_live_nil
      show s.live = []
      cases hl : s.live with
      | nil => rfl
      | cons e rest =>
        have h2 := (h.2 e (by rw [hl]; exact List.mem_cons_self _ _)).2.2
        rcases hp with hp | hp <;> rw [hp] at h2 <;> simp at h2
    · rw [if_neg hp]
      exact h
  | submit emptyManual =>
    cases emptyManual with
    | true =>
      simp only [applyOp]
      by_cases hp : s.phase = Phase.quiz false
      · rw [if_pos hp]
        show TimerInv (startTimerOp (stopTimerOp s))
        apply timerInv_startTimerOp _
          (timerInv_of_live_nil _ (stopTimerOp_live_nil s h))
        rw [stopTimerOp_phase s, hp]
      · rw [if_neg hp]
        exact h
    | false =>
      simp only [applyOp]
      by_cases hp : s.phase = Phase.quiz false
      · rw [if_pos hp]
        apply timerInv_of_live_nil
        show (stopTimerOp s).live = []
        exact stopTimerOp_live_nil s h
      · rw [if_neg hp]
        exact h
  | timeoutFire id =>
    simp only [applyOp]
    by_cases hp : (s.live.any fun e => decide (e.id = id)) = true
    · rw [if_pos hp]
      apply timerInv_of_live_nil
      show (stopTimerOp s).live = []
      exact stopTimerOp_live_nil s h
    · rw [if_neg hp]
      exact h
  | next =>
    simp only [applyOp]
    by_cases hp : s.phase = Phase.quiz true
    · rw [if_pos hp]
      have hlive : s.live = [] := by
        cases hl : s.live with
        | nil => rfl
        | cons e rest =>
          have h2 := (h.2 e (by rw [hl]; exact List.mem_cons_self _ _)).2.2
          rw [hp] at h2
          simp at h2
      by_cases hmore : s.currentIndex + 1 < s.totalQuestions
      · rw [if_pos hmore]
        apply timerInv_startTimerOp _ _ rfl
        apply timerInv_of_live_nil
        show s.live = []
        exact hlive
      · rw [if_neg hmore]
        apply timerInv_of_live_nil
        show s.live = []
        exact hlive
    · rw [if_neg hp]
      exact h
  | restart =>
    simp only [applyOp]
    apply timerInv_of_live_nil
    show (stopTimerOp s).live = []
    exact stopTimerOp_live_nil s h

/-- C5: in every state reachable from startup, at most one countdown
interval is live, and any live interval is the one held in
`state.timerInterval` and counts for the currently displayed question —
starting a new timer cancels the previous interval, every path that ends
a question (manual submission, timeout, restart) stops the timer, so a
stale expiry never fires against a question that has already advanced. -/
theorem timer_single_and_fresh (ops : List AppOp) :
    (ops.foldl applyOp initState).live.length ≤ 1 ∧
      ∀ e ∈ (ops.foldl applyOp initState).live,
        (ops.foldl applyOp initState).slot = some e.id ∧
        e.question = (ops.foldl applyOp initState).currentIndex := by
  have hinv : TimerInv (ops.foldl applyOp initState) := by
    induction ops using List.reverseRecOn with
    | nil => exact timerInv_of_live_nil _ rfl
    | append_singleton ops op ih =>
      rw [List.foldl_append, List.foldl_cons, List.foldl_nil]
      exact timerInv_preserved _ op ih
  exact ⟨hinv.1, fun e he => ⟨(hinv.2 e he).1, (hinv.2 e he).2.1⟩⟩

/-- Witness for `timer_single_and_fresh`: after starting a three-question
quiz, submitting, and advancing, exactly one interval is live and it
belongs to question 1. -/
theorem timer_single_and_fresh_witness :
    (([AppOp.startQuiz 3, AppOp.submit false, AppOp.next].foldl applyOp
        initState).live.length ≤ 1) ∧
    (([AppOp.startQuiz 3, AppOp.submit false, AppOp.next].foldl applyOp
        initState).slot = some 1 ∧
      (⟨1, 1⟩ : IntervalInfo).question =
        ([AppOp.startQuiz 3, AppOp.submit false, AppOp.next].foldl applyOp
          initState).currentIndex) := by
  have h := timer_single_and_fresh [AppOp.startQuiz 3, AppOp.submit false,
    AppOp.next]
  exact ⟨h.1, h.2 ⟨1, 1⟩ (by decide)⟩

end Driver

/-! ### Claim C10: submitAnswer with an empty manual answer
(part_000 lines 917-951)

submitAnswer stops the timer, takes the trimmed input (or the empty
string on a timeout), and when the trimmed manual answer is empty it
alerts, restarts the timer and returns without contacting the server;
otherwise it posts `{question_index, answer}` for grading and appends the
graded result to `state.answers`.  The grading round trip is an oracle
parameter. -/

namespace Quiz

/-- JavaScript `String.prototype.trim` whitespace (the common set). -/
def isJsSpace (c : Nat) : Bool :=
  decide (c = 9 ∨ c = 10 ∨ c = 11 ∨ c = 12 ∨ c = 13 ∨ c = 32 ∨
    c = 0xA0 ∨ c = 0x2028 ∨ c = 0x2029 ∨ c = 0xFEFF)

/-- `input.trim()`. -/
def trimStr (s : Str) : Str :=
  ((s.dropWhile isJsSpace).reverse.dropWhile isJsSpace).reverse

/-- The quiz-screen state submitAnswer manipulates. -/
structure QuizState where
  currentIndex : Nat
  answers : List AnswerResult
  timePerQuestion : Int
  timeRemaining : Int
  timerRunning : Bool
deriving DecidableEq

/-- startTimer on the quiz state: reset the clock and arm the interval. -/
def startTimerQ (s : QuizState) : QuizState :=
  { s with
    timeRemaining := s.timePerQuestion
    timerRunning := true }

/-- stopTimer on the quiz state. -/
def stopTimerQ (s : QuizState) : QuizState :=
  { s with timerRunning := false }

/-- The body posted to `/quiz/:id/answer`. -/
structure GradingRequest where
  question_index : Nat
  answer : Str
deriving DecidableEq

/-- submitAnswer: returns the updated state plus the grading request it
posted, if any.  `grade` stands for the backend's response. -/
def submitAnswer (grade : Str → AnswerResult) (isTimeout : Bool)
    (inputValue : Str) (s : QuizState) : QuizState × Option GradingRequest :=
  let s1 := stopTimerQ s
  let answer := if isTimeout then [] else trimStr inputValue
  if answer = [] ∧ isTimeout = false then
    (startTimerQ s1, none)
  else
    ({ s1 with answers := s1.answers ++ [grade answer] },
      some ⟨s.currentIndex, answer⟩)

/-- C10: a manual (non-timeout) submission whose trimmed answer is empty
posts nothing for grading, leaves the answers list and current question
unchanged, and restarts the question timer at the full time budget; only
a timeout submission sends the empty string onward for grading, appending
its graded result. -/
theorem submitAnswer_empty_manual (grade : Str → AnswerResult)
    (inputValue : Str) (s : QuizState) (hempty : trimStr inputValue = []) :
    (submitAnswer grade false inputValue s).2 = none ∧
    (submitAnswer grade false inputValue s).1.answers = s.answers ∧
    (submitAnswer grade false inputValue s).1.currentIndex = s.currentIndex ∧
    (submitAnswer grade false inputValue s).1.timerRunning = true ∧
    (submitAnswer grade false inputValue s).1.timeRemaining = s.timePerQuestion ∧
    (submitAnswer grade true inputValue s).2 = some ⟨s.currentIndex, []⟩ ∧
    (submitAnswer grade true inputValue s).1.answers = s.answers ++ [grade []] := by
  have hmanual : submitAnswer grade false inputValue s =
      (startTimerQ (stopTimerQ s), none) := by
    unfold submitAnswer
    rw [if_pos ⟨by rw [if_neg (by simp)]; exact hempty, rfl⟩]
  have htimeout : submitAnswer grade true inputValue s =
      ({ stopTimerQ s with answers := (stopTimerQ s).answers ++ [grade []] },
        some ⟨s.currentIndex, []⟩) := by
    unfold submitAnswer
    rw [if_neg (by simp)]
    rfl
  rw [hmanual, htimeout]
  exact ⟨rfl, rfl, rfl, rfl, rfl, rfl, rfl⟩

/-- Witness for `submitAnswer_empty_manual` on the input `"   "` (three
spaces) in a one-question session with two answers already recorded. -/
theorem submitAnswer_empty_manual_witness :
    trimStr [32, 32, 32] = [] ∧
    (submitAnswer (fun _ => ansFull) false [32, 32, 32]
      ⟨0, [], 60, 17, true⟩).2 = none ∧
    (submitAnswer (fun _ => ansFull) false [32, 32, 32]
      ⟨0, [], 60, 17, true⟩).1.answers = [] ∧
    (submitAnswer (fun _ => ansFull) true [32, 32, 32]
      ⟨0, [], 60, 17, true⟩).2 = some ⟨0, []⟩ := by
  have h := submitAnswer_empty_manual (fun _ => ansFull) [32, 32, 32]
    ⟨0, [], 60, 17, true⟩ (by decide)
  exact ⟨by decide, h.1, h.2.1, h.2.2.2.2.2.1⟩

end Quiz

end LangTrainer
